import Mathlib

/-!
Verification of the contribution aggregation and identity resolution engine
of the wordpress-props action.  The definitions below are a shallow
embedding of the current source (`src/index.js` / the ESM draft defining
`getContributorsList`): the four category sets, the skip/dedup policy, the
channel-by-channel aggregation pass, the batched profile backfill, the
WordPress.org directory merge, and the attribution renderer.
-/

namespace WordPressProps

/-- A GitHub user object, as attached to a linked commit author and as
returned by the batched user query: `databaseId, login, name, email`. -/
structure GqlUser where
  databaseId : Nat
  login : String
  name : String
  email : String
deriving DecidableEq, Repr

/-- The `commit.commit.author` payload: a nullable linked `user` object plus
the raw commit `name` and `email`. -/
structure CommitAuthor where
  user : Option GqlUser
  name : String
  email : String
deriving DecidableEq, Repr

/-- One node of `closingIssuesReferences`: the issue author's login and the
logins of the authors of the issue's own comments. -/
structure LinkedIssue where
  author : String
  comments : List String
deriving DecidableEq, Repr

/-- The contribution data the aggregation pass reads off the GraphQL
response: commit authors, review author logins, comment author logins, and
linked ("closing") issues. -/
structure ContributorData where
  commits : List CommitAuthor
  reviews : List String
  comments : List String
  closingIssuesReferences : List LinkedIssue
deriving DecidableEq, Repr

/-- An entry of the `userData` table.  Email-fallback entries carry only
`name` and `email`; entries for linked accounts carry `databaseId` and
`login` as well; `dotOrg` is attached by the directory merge when the
WordPress.org lookup resolves the contributor. -/
structure Profile where
  databaseId : Option Nat
  login : Option String
  name : String
  email : String
  dotOrg : Option String
deriving DecidableEq, Repr

/-- The four category sets.  JavaScript `Set`s preserve insertion order, so
each set is embedded as a duplicate-free list in insertion order. -/
structure Contributors where
  committers : List String
  reviewers : List String
  commenters : List String
  reporters : List String
deriving DecidableEq, Repr

/-- `contributorTypes`: the fixed priority order of the categories. -/
def contributorTypes : List String :=
  ["committers", "reviewers", "commenters", "reporters"]

/-- `contributors[type]`: selects the category set named by a type string. -/
def getSet (c : Contributors) : String → List String
  | "committers" => c.committers
  | "reviewers" => c.reviewers
  | "commenters" => c.commenters
  | "reporters" => c.reporters
  | _ => []

/-- The fixed exclusion list of `skipUser`. -/
def skippedUsers : List String := ["github-actions"]

/-- `contributorAlreadyPresent`: loops over `contributorTypes` and checks
`contributors[contributorType].has(username)`. -/
def contributorAlreadyPresent (c : Contributors) (username : String) : Bool :=
  contributorTypes.any (fun t => (getSet c t).contains username)

/-- `skipUser`: returns `false` when the username is not on the exclusion
list (`-1 === skippedUsers.indexOf(username)`) and not already present in
any category set, `true` otherwise. -/
def skipUser (c : Contributors) (username : String) : Bool :=
  if !(skippedUsers.contains username) && !(contributorAlreadyPresent c username)
  then false
  else true

/-- `Set.prototype.add`: appends the element unless it is already a member,
preserving insertion order. -/
def setAdd (s : List String) (x : String) : List String :=
  if s.contains x then s else s ++ [x]

/-- The `userData` table: a JavaScript object keyed by login (or by
fallback email), embedded as an insertion-ordered association list. -/
abbrev UserData := List (String × Profile)

/-- JavaScript property assignment `userData[k] = v`: overwrites the
binding for `k` in place, or appends a new binding. -/
def udSet : UserData → String → Profile → UserData
  | [], k, v => [(k, v)]
  | (k₁, v₁) :: rest, k, v =>
      if k₁ = k then (k, v) :: rest else (k₁, v₁) :: udSet rest k v

/-- JavaScript property read `userData[k]`. -/
def udGet : UserData → String → Option Profile
  | [], _ => none
  | (k₁, v₁) :: rest, k => if k₁ = k then some v₁ else udGet rest k

/-- The mutable state of one pass: the category sets and the `userData`
profile table. -/
structure AggState where
  contributors : Contributors
  userData : UserData
deriving DecidableEq, Repr

/-- The state the module-level collections are initialized to. -/
def emptyState : AggState :=
  { contributors := { committers := [], reviewers := [], commenters := [], reporters := [] },
    userData := [] }

/-- The profile stored for a linked user object. -/
def gqlToProfile (u : GqlUser) : Profile :=
  { databaseId := some u.databaseId, login := some u.login,
    name := u.name, email := u.email, dotOrg := none }

/-- The `name`/`email` profile stored for an email-fallback commit author. -/
def emailProfile (c : CommitAuthor) : Profile :=
  { databaseId := none, login := none, name := c.name, email := c.email, dotOrg := none }

/-- Processing of one pull-request commit.  An author without a linked
`user` object is recorded under the email key, bypassing `skipUser`; a
linked author is recorded under the login unless `skipUser` says to skip. -/
def processCommit (s : AggState) (c : CommitAuthor) : AggState :=
  match c.user with
  | none =>
      { contributors := { s.contributors with
          committers := setAdd s.contributors.committers c.email },
        userData := udSet s.userData c.email (emailProfile c) }
  | some u =>
      if skipUser s.contributors u.login then s
      else
        { contributors := { s.contributors with
            committers := setAdd s.contributors.committers u.login },
          userData := udSet s.userData u.login (gqlToProfile u) }

/-- The commit loop. -/
def processCommits (s : AggState) (cs : List CommitAuthor) : AggState :=
  cs.foldl processCommit s

/-- One reviewer insertion. -/
def addReviewer (s : AggState) (x : String) : AggState :=
  { s with contributors := { s.contributors with
      reviewers := setAdd s.contributors.reviewers x } }

/-- One commenter insertion. -/
def addCommenter (s : AggState) (x : String) : AggState :=
  { s with contributors := { s.contributors with
      commenters := setAdd s.contributors.commenters x } }

/-- One reporter insertion. -/
def addReporter (s : AggState) (x : String) : AggState :=
  { s with contributors := { s.contributors with
      reporters := setAdd s.contributors.reporters x } }

/-- The review pass: `reviews.filter(r => !skipUser(r.author.login))` runs
entirely against the state left by the commit pass, and only then does the
`forEach` add the surviving logins to `reviewers`. -/
def processReviews (s : AggState) (reviews : List String) : AggState :=
  (reviews.filter (fun r => !(skipUser s.contributors r))).foldl addReviewer s

/-- The pull-request comment pass, analogous to the review pass but
targeting `commenters`. -/
def processComments (s : AggState) (comments : List String) : AggState :=
  (comments.filter (fun r => !(skipUser s.contributors r))).foldl addCommenter s

/-- The linked-issue author check: `if (!skipUser(author)) add to reporters`. -/
def reporterStep (s : AggState) (a : String) : AggState :=
  if !(skipUser s.contributors a) then addReporter s a else s

/-- The linked-issue comment check: `if (skipUser(author)) continue`, else
add to `commenters`. -/
def commentStep (s : AggState) (a : String) : AggState :=
  if skipUser s.contributors a then s else addCommenter s a

/-- One linked issue: the issue author is checked and added to `reporters`,
then each issue comment author is checked (against the then-current state)
and added to `commenters`. -/
def processIssue (s : AggState) (iss : LinkedIssue) : AggState :=
  iss.comments.foldl commentStep (reporterStep s iss.author)

/-- The linked-issue loop. -/
def processIssues (s : AggState) (issues : List LinkedIssue) : AggState :=
  issues.foldl processIssue s

/-- The aggregation pass starting from an arbitrary state.  The category
sets and `userData` are module-level collections in the source, so a second
`run` in the same process starts from whatever state the first left. -/
def aggregateFrom (s : AggState) (d : ContributorData) : AggState :=
  processIssues
    (processComments
      (processReviews (processCommits s d.commits) d.reviews)
      d.comments)
    d.closingIssuesReferences

/-- The aggregation pass of a run in a fresh process. -/
def aggregate (d : ContributorData) : AggState :=
  aggregateFrom emptyState d

/-- The union `[...reviewers, ...commenters, ...reporters]` that the
profile backfill enriches. -/
def unionRCR (s : AggState) : List String :=
  s.contributors.reviewers ++ s.contributors.commenters ++ s.contributors.reporters

/-- Merging the batched user query response into `userData`: each returned
user object is stored under its `login`. -/
def storeUsers (ud : UserData) (users : List GqlUser) : UserData :=
  users.foldl (fun acc u => udSet acc u.login (gqlToProfile u)) ud

/-- The profile backfill step: guarded by `union.length > 0`, so no batched
request is issued when there is nobody to enrich.  `getUsersData` stands
for the external batched user query (the values of the response object). -/
def backfill (getUsersData : List String → List GqlUser) (s : AggState) : AggState :=
  if 0 < (unionRCR s).length then
    { s with userData := storeUsers s.userData (getUsersData (unionRCR s)) }
  else s

/-- The WordPress.org lookup response: per login, either a record carrying
a `slug` (embedded as `some slug`) or the literal `false` (embedded as
`none`). -/
abbrev DirResponse := List (String × Option String)

/-- Property lookup on the directory response object. -/
def dirLookup (data : DirResponse) (k : String) : Option (Option String) :=
  (data.find? (fun p => p.1 == k)).map (fun p => p.2)

/-- The directory merge: for every key of `userData`, if the response has
that key and its value is not `false`, attach `dotOrg := slug`. -/
def mergeDirectory (ud : UserData) (data : DirResponse) : UserData :=
  ud.map (fun kv =>
    match dirLookup data kv.1 with
    | some (some slug) => (kv.1, { kv.2 with dotOrg := some slug })
    | _ => kv)

/-- `priority.replace(/^./, char => char.toUpperCase())`. -/
def capitalize (s : String) : String :=
  match s.data with
  | [] => s
  | c :: cs => String.mk (c.toUpper :: cs)

/-- The section header emitted for a category. -/
def headerFor (priority : String) : String :=
  "# " ++ capitalize priority ++ "\n"

/-- The props entry produced for one member: a `Co-authored-by:` trailer
when the profile carries a resolved `dotOrg`, and `undefined` (embedded as
`none`) when it does not, in which case the member is collected as
unconnected instead.  The source would throw on a member with no `userData`
entry at all; that path is unreachable in the pipeline and is mapped to
`none` here. -/
def entryFor (ud : UserData) (username : String) : Option String :=
  match udGet ud username with
  | some prof =>
      match prof.dotOrg with
      | some slug =>
          some ("Co-authored-by: " ++ username ++ " <" ++ slug ++ "@git.wordpress.org>")
      | none => none
  | none => none

/-- `Array.prototype.join("\n")` over the entries: `undefined` entries
stringify as the empty string. -/
def joinEntries : List (Option String) → String
  | [] => ""
  | [e] => e.getD ""
  | e :: e₂ :: rest => e.getD "" ++ "\n" ++ joinEntries (e₂ :: rest)

/-- One rendered section.  The source guards with
`contributors[priority].length === 0`, but a JavaScript `Set` has `size`
and no `length`, so the comparison reads `undefined === 0`, which is always
false: the guard never fires and every category emits its header. -/
def renderSection (ud : UserData) (c : Contributors) (priority : String) : String :=
  headerFor priority ++ joinEntries ((getSet c priority).map (entryFor ud))

/-- `Array.prototype.join("\n\n")` over the four section strings. -/
def joinSections : List String → String
  | [] => ""
  | [x] => x
  | x :: x₂ :: rest => x ++ "\n\n" ++ joinSections (x₂ :: rest)

/-- The rendered attribution text. -/
def renderText (c : Contributors) (ud : UserData) : String :=
  joinSections (contributorTypes.map (renderSection ud c))

/-- Whether a member is pushed onto `unconnectedUsers`: its profile exists
but carries no `dotOrg` property. -/
def isUnconnected (ud : UserData) (username : String) : Bool :=
  match udGet ud username with
  | some prof => prof.dotOrg.isNone
  | none => false

/-- The `unconnectedUsers` list accumulated while rendering, in category
priority order and member insertion order. -/
def unconnectedUsers (c : Contributors) (ud : UserData) : List String :=
  contributorTypes.foldl (fun acc t => acc ++ (getSet c t).filter (isUnconnected ud)) []

/-- The renderer output: the joined text and the unconnected list. -/
def render (c : Contributors) (ud : UserData) : String × List String :=
  (renderText c ud, unconnectedUsers c ud)

/-- The network requests a run performs after aggregation: the batched
profile request (with the logins it asked for) and the directory lookup
(with the login list it posted), `none` when the request was not issued. -/
structure RunTrace where
  batchRequest : Option (List String)
  directoryRequest : Option (List String)
deriving DecidableEq, Repr

/-- The flattened `githubUsers` list: every member of every category set,
iterated in `contributorTypes` insertion order. -/
def githubUsers (s : AggState) : List String :=
  s.contributors.committers ++ s.contributors.reviewers ++
    s.contributors.commenters ++ s.contributors.reporters

/-- `getContributorsList`: aggregation, guarded profile backfill, the
zero-contributor early return (the run yields `undefined` and posts
nothing), the directory lookup and merge, and the rendering.  The two
function arguments stand for the external batched user query and the
WordPress.org lookup; the returned trace records which of the two requests
were issued. -/
def getContributorsList (getUsersData : List String → List GqlUser)
    (getWPOrgData : List String → DirResponse) (d : ContributorData) :
    Option (String × List String) × RunTrace :=
  let s₁ := aggregate d
  let batchReq : Option (List String) :=
    if 0 < (unionRCR s₁).length then some (unionRCR s₁) else none
  let s₂ := backfill getUsersData s₁
  let gh := githubUsers s₂
  if gh.length = 0 then (none, ⟨batchReq, none⟩)
  else
    let ud := mergeDirectory s₂.userData (getWPOrgData gh)
    (some (render s₂.contributors ud), ⟨batchReq, some gh⟩)

/-- The character replacement performed by the global regex replace over
the class of dot, slash and dash. -/
def gqlEscapeChar (c : Char) : Char :=
  if c = '.' || c = '/' || c = '-' then '_' else c

/-- The global regex replacement applied character by character. -/
def replaceGqlChars : List Char → List Char
  | [] => []
  | c :: cs => gqlEscapeChar c :: replaceGqlChars cs

/-- `escapeForGql`: prepends an underscore and applies the replacement. -/
def escapeForGql (s : String) : String :=
  "_" ++ String.mk (replaceGqlChars s.data)

/-- Modelled from the spec: the sanitizer policy as the spec words it,
"replace every character outside letters/digits with an underscore, and
prefix the whole token with an underscore", stated for refinement
comparison against `escapeForGql`. -/
def specSanitize (s : String) : String :=
  "_" ++ String.mk (s.data.map (fun c => if c.isAlphanum then c else '_'))

/-- The commits of an input whose author has no linked account and whose
fallback email is `e`, in processing order. -/
def emailFallbackCommits (cs : List CommitAuthor) (e : String) : List CommitAuthor :=
  cs.filter (fun c => c.user.isNone && c.email == e)

/-! Concrete fixtures used to exercise the definitions. -/

/-- A linked account for the excluded bot login. -/
def botUser : GqlUser :=
  { databaseId := 99, login := "github-actions", name := "Actions Bot",
    email := "bot@example.test" }

/-- A linked account for an ordinary contributor. -/
def aliceUser : GqlUser :=
  { databaseId := 1, login := "alice", name := "Alice", email := "alice@example.test" }

/-- The excluded login as linked commit author and review author. -/
def botCommitReviewData : ContributorData :=
  { commits := [{ user := some botUser, name := "Actions Bot", email := "bot@example.test" }],
    reviews := ["github-actions"], comments := [], closingIssuesReferences := [] }

/-- An ordinary login as linked commit author and review author. -/
def aliceCommitReviewData : ContributorData :=
  { commits := [{ user := some aliceUser, name := "Alice", email := "alice@example.test" }],
    reviews := ["alice"], comments := [], closingIssuesReferences := [] }

/-- The excluded login appearing in all five contribution channels. -/
def botEverywhereData : ContributorData :=
  { commits := [{ user := some botUser, name := "Actions Bot", email := "bot@example.test" }],
    reviews := ["github-actions"], comments := ["github-actions"],
    closingIssuesReferences :=
      [{ author := "github-actions", comments := ["github-actions"] }] }

/-- The same input extended with an unlinked commit whose fallback email is
the literal excluded login. -/
def botEverywhereEmailData : ContributorData :=
  { botEverywhereData with
      commits := botEverywhereData.commits ++
        [{ user := none, name := "Actions Bot", email := "github-actions" }] }

/-- Profiles of two contributors, neither yet carrying a directory handle. -/
def roundTripUserData : UserData :=
  [("alice", { databaseId := some 1, login := some "alice", name := "Alice",
               email := "alice@example.test", dotOrg := none }),
   ("bob", { databaseId := some 2, login := some "bob", name := "Bob",
             email := "bob@example.test", dotOrg := none })]

/-- A directory response resolving alice and marking bob as not linked. -/
def roundTripDir : DirResponse := [("alice", some "alice-wp"), ("bob", none)]

/-- Category sets holding the two round-trip contributors. -/
def roundTripContributors : Contributors :=
  { committers := ["alice", "bob"], reviewers := [], commenters := [], reporters := [] }

/-- A single resolved committer with the other three categories empty. -/
def soloContributors : Contributors :=
  { committers := ["alice"], reviewers := [], commenters := [], reporters := [] }

/-- The profile table for the single resolved committer. -/
def soloUserData : UserData :=
  [("alice", { databaseId := some 1, login := some "alice", name := "Alice",
               email := "alice@example.test", dotOrg := some "alice-wp" })]

/-- An input whose only contribution is one review. -/
def reviewOnlyData : ContributorData :=
  { commits := [], reviews := ["bob"], comments := [], closingIssuesReferences := [] }

/-- A batched-query oracle answering every login with a profile under that
login. -/
def profileOracle : String → GqlUser :=
  fun l => { databaseId := 7, login := l, name := "Profile", email := "profile@example.test" }

/-- A batched user query built from the oracle. -/
def mapUsersData : List String → List GqlUser := fun ls => ls.map profileOracle

/-- A directory service marking every login as not linked. -/
def noneDirData : List String → DirResponse := fun ls => ls.map (fun l => (l, none))

/-- The empty contribution input. -/
def emptyData : ContributorData :=
  { commits := [], reviews := [], comments := [], closingIssuesReferences := [] }

/-- An input whose only contribution is one linked commit. -/
def commitOnlyData : ContributorData :=
  { commits := [{ user := some aliceUser, name := "Alice", email := "alice@example.test" }],
    reviews := [], comments := [], closingIssuesReferences := [] }

/-- The input of a first run in one process. -/
def firstRunData : ContributorData := commitOnlyData

/-- The input of a second run in the same process: a review by the login
the first run recorded as a committer. -/
def secondRunData : ContributorData :=
  { commits := [], reviews := ["alice"], comments := [], closingIssuesReferences := [] }

/-- Two unlinked commits sharing one fallback email with different names. -/
def twoEmailCommitsData : ContributorData :=
  { commits := [{ user := none, name := "First Name", email := "shared@example.test" },
      { user := none, name := "Second Name", email := "shared@example.test" }],
    reviews := [], comments := [], closingIssuesReferences := [] }

/-- Pairwise disjointness of two member lists. -/
def DisjPair (a b : List String) : Prop := ∀ x, x ∈ a → x ∉ b

/-- The one-membership invariant: no key is a member of two distinct
category sets. -/
def DisjointSets (c : Contributors) : Prop :=
  DisjPair c.committers c.reviewers ∧ DisjPair c.committers c.commenters ∧
  DisjPair c.committers c.reporters ∧ DisjPair c.reviewers c.commenters ∧
  DisjPair c.reviewers c.reporters ∧ DisjPair c.commenters c.reporters

/-! Basic lemmas about the set and table primitives. -/

theorem mem_setAdd {l : List String} {x y : String} :
    y ∈ setAdd l x ↔ y ∈ l ∨ y = x := by
  unfold setAdd
  split
  · rename_i h
    simp only [List.contains_eq_any_beq, List.any_eq_true, beq_iff_eq] at h
    obtain ⟨a, ha, rfl⟩ := h
    constructor
    · exact Or.inl
    · rintro (h | rfl) <;> assumption
  · simp [List.mem_append]

theorem mem_setAdd_self (l : List String) (x : String) : x ∈ setAdd l x :=
  mem_setAdd.mpr (Or.inr rfl)

theorem mem_setAdd_of_mem {l : List String} {y : String} (x : String) (h : y ∈ l) :
    y ∈ setAdd l x :=
  mem_setAdd.mpr (Or.inl h)

theorem setAdd_nodup {l : List String} (h : l.Nodup) (x : String) :
    (setAdd l x).Nodup := by
  unfold setAdd
  split
  · exact h
  · rename_i hc
    simp only [List.contains_eq_any_beq, List.any_eq_true, beq_iff_eq, not_exists, not_and] at hc
    refine List.Nodup.append h (List.nodup_singleton x) ?_
    intro a ha hx
    rw [List.mem_singleton] at hx
    subst hx
    exact (hc a ha) rfl

theorem udGet_udSet_self (ud : UserData) (k : String) (v : Profile) :
    udGet (udSet ud k v) k = some v := by
  induction ud with
  | nil => simp [udSet, udGet]
  | cons p rest ih =>
    obtain ⟨k₁, v₁⟩ := p
    by_cases h : k₁ = k
    · simp [udSet, udGet, h]
    · simp [udSet, udGet, h, ih]

theorem udGet_udSet_ne (ud : UserData) {k k' : String} (v : Profile) (h : k' ≠ k) :
    udGet (udSet ud k v) k' = udGet ud k' := by
  induction ud with
  | nil => simp [udSet, udGet, Ne.symm h]
  | cons p rest ih =>
    obtain ⟨k₁, v₁⟩ := p
    by_cases h₁ : k₁ = k
    · subst h₁
      simp [udSet, udGet, Ne.symm h]
    · by_cases h₂ : k₁ = k'
      · simp [udSet, udGet, h₁, h₂, h]
      · simp [udSet, udGet, h₁, h₂, ih]

/-! Lemmas about the skip policy. -/

theorem contributorAlreadyPresent_eq_false_iff {c : Contributors} {u : String} :
    contributorAlreadyPresent c u = false ↔
      u ∉ c.committers ∧ u ∉ c.reviewers ∧ u ∉ c.commenters ∧ u ∉ c.reporters := by
  simp [contributorAlreadyPresent, contributorTypes, getSet]

theorem skipUser_eq_false_bool {c : Contributors} {u : String} :
    skipUser c u = false ↔
      skippedUsers.contains u = false ∧ contributorAlreadyPresent c u = false := by
  unfold skipUser
  rcases ha : skippedUsers.contains u <;> rcases hb : contributorAlreadyPresent c u <;> simp

theorem skipUser_eq_false_iff {c : Contributors} {u : String} :
    skipUser c u = false ↔
      u ∉ skippedUsers ∧ u ∉ c.committers ∧ u ∉ c.reviewers ∧
        u ∉ c.commenters ∧ u ∉ c.reporters := by
  rw [skipUser_eq_false_bool]
  simp only [contributorAlreadyPresent_eq_false_iff]
  simp [and_assoc]

theorem skipUser_of_mem_committers {c : Contributors} {u : String}
    (h : u ∈ c.committers) : skipUser c u = true := by
  rcases hb : skipUser c u with _ | _
  · exact absurd h (skipUser_eq_false_iff.mp hb).2.1
  · rfl

theorem skipUser_of_skipped {c : Contributors} {u : String}
    (h : u ∈ skippedUsers) : skipUser c u = true := by
  rcases hb : skipUser c u with _ | _
  · exact absurd h (skipUser_eq_false_iff.mp hb).1
  · rfl

theorem ne_of_not_skipped {c : Contributors} {u v : String}
    (hu : u ∈ skippedUsers) (hv : skipUser c v = false) : v ≠ u := by
  intro h
  subst h
  rw [skipUser_of_skipped hu] at hv
  cases hv

theorem skipUser_eq_true_iff {c : Contributors} {u : String} :
    skipUser c u = true ↔
      u ∈ skippedUsers ∨ u ∈ c.committers ∨ u ∈ c.reviewers ∨
        u ∈ c.commenters ∨ u ∈ c.reporters := by
  constructor
  · intro h
    by_contra hn
    push_neg at hn
    obtain ⟨h1, h2, h3, h4, h5⟩ := hn
    rw [skipUser_eq_false_iff.mpr ⟨h1, h2, h3, h4, h5⟩] at h
    cases h
  · intro h
    rcases hb : skipUser c u with _ | _
    · obtain ⟨n1, n2, n3, n4, n5⟩ := skipUser_eq_false_iff.mp hb
      rcases h with h | h | h | h | h
      · exact absurd h n1
      · exact absurd h n2
      · exact absurd h n3
      · exact absurd h n4
      · exact absurd h n5
    · rfl

/-! Component-preservation lemmas for the aggregation phases: each phase
touches only its own category set (and, for commits, the profile table). -/

theorem processCommit_others (s : AggState) (c : CommitAuthor) :
    (processCommit s c).contributors.reviewers = s.contributors.reviewers ∧
    (processCommit s c).contributors.commenters = s.contributors.commenters ∧
    (processCommit s c).contributors.reporters = s.contributors.reporters := by
  rcases c with ⟨user, name, email⟩
  cases user with
  | none => exact ⟨rfl, rfl, rfl⟩
  | some u =>
    by_cases hskip : skipUser s.contributors u.login = true
    · simp [processCommit, hskip]
    · simp [processCommit, hskip]

theorem processCommits_others (cs : List CommitAuthor) (s : AggState) :
    (processCommits s cs).contributors.reviewers = s.contributors.reviewers ∧
    (processCommits s cs).contributors.commenters = s.contributors.commenters ∧
    (processCommits s cs).contributors.reporters = s.contributors.reporters := by
  induction cs generalizing s with
  | nil => exact ⟨rfl, rfl, rfl⟩
  | cons c t ih =>
    have h := processCommit_others s c
    have h' := ih (processCommit s c)
    exact ⟨h'.1.trans h.1, h'.2.1.trans h.2.1, h'.2.2.trans h.2.2⟩

theorem mem_committers_processCommit {s : AggState} {x : String} (c : CommitAuthor)
    (h : x ∈ s.contributors.committers) :
    x ∈ (processCommit s c).contributors.committers := by
  rcases c with ⟨user, name, email⟩
  cases user with
  | none => exact mem_setAdd_of_mem _ h
  | some u =>
    by_cases hskip : skipUser s.contributors u.login = true
    · simpa [processCommit, hskip] using h
    · simpa [processCommit, hskip] using mem_setAdd_of_mem u.login h

theorem mem_committers_processCommits (cs : List CommitAuthor) {s : AggState} {x : String}
    (h : x ∈ s.contributors.committers) :
    x ∈ (processCommits s cs).contributors.committers := by
  induction cs generalizing s with
  | nil => exact h
  | cons c t ih => exact ih (mem_committers_processCommit c h)

theorem nodup_committers_processCommit {s : AggState} (c : CommitAuthor)
    (h : s.contributors.committers.Nodup) :
    (processCommit s c).contributors.committers.Nodup := by
  rcases c with ⟨user, name, email⟩
  cases user with
  | none => exact setAdd_nodup h _
  | some u =>
    by_cases hskip : skipUser s.contributors u.login = true
    · simpa [processCommit, hskip] using h
    · simpa [processCommit, hskip] using setAdd_nodup h u.login

theorem nodup_committers_processCommits (cs : List CommitAuthor) {s : AggState}
    (h : s.contributors.committers.Nodup) :
    (processCommits s cs).contributors.committers.Nodup := by
  induction cs generalizing s with
  | nil => exact h
  | cons c t ih => exact ih (nodup_committers_processCommit c h)

theorem revFold_components (K : List String) (s : AggState) :
    (K.foldl addReviewer s).contributors.committers = s.contributors.committers ∧
    (K.foldl addReviewer s).contributors.commenters = s.contributors.commenters ∧
    (K.foldl addReviewer s).contributors.reporters = s.contributors.reporters ∧
    (K.foldl addReviewer s).userData = s.userData := by
  induction K generalizing s with
  | nil => exact ⟨rfl, rfl, rfl, rfl⟩
  | cons a t ih => exact ih (addReviewer s a)

theorem addReviewer_reviewers (s : AggState) (x : String) :
    (addReviewer s x).contributors.reviewers = setAdd s.contributors.reviewers x := rfl

theorem mem_revFold (K : List String) (s : AggState) (x : String) :
    x ∈ (K.foldl addReviewer s).contributors.reviewers ↔
      x ∈ s.contributors.reviewers ∨ x ∈ K := by
  induction K generalizing s with
  | nil => simp
  | cons a t ih =>
    rw [List.foldl_cons, ih, addReviewer_reviewers, mem_setAdd]
    simp only [List.mem_cons]
    tauto

theorem commFold_components (K : List String) (s : AggState) :
    (K.foldl addCommenter s).contributors.committers = s.contributors.committers ∧
    (K.foldl addCommenter s).contributors.reviewers = s.contributors.reviewers ∧
    (K.foldl addCommenter s).contributors.reporters = s.contributors.reporters ∧
    (K.foldl addCommenter s).userData = s.userData := by
  induction K generalizing s with
  | nil => exact ⟨rfl, rfl, rfl, rfl⟩
  | cons a t ih => exact ih (addCommenter s a)

theorem addCommenter_commenters (s : AggState) (x : String) :
    (addCommenter s x).contributors.commenters = setAdd s.contributors.commenters x := rfl

theorem mem_commFold (K : List String) (s : AggState) (x : String) :
    x ∈ (K.foldl addCommenter s).contributors.commenters ↔
      x ∈ s.contributors.commenters ∨ x ∈ K := by
  induction K generalizing s with
  | nil => simp
  | cons a t ih =>
    rw [List.foldl_cons, ih, addCommenter_commenters, mem_setAdd]
    simp only [List.mem_cons]
    tauto

theorem processReviews_components (s : AggState) (rs : List String) :
    (processReviews s rs).contributors.committers = s.contributors.committers ∧
    (processReviews s rs).contributors.commenters = s.contributors.commenters ∧
    (processReviews s rs).contributors.reporters = s.contributors.reporters ∧
    (processReviews s rs).userData = s.userData :=
  revFold_components _ s

theorem processComments_components (s : AggState) (cs : List String) :
    (processComments s cs).contributors.committers = s.contributors.committers ∧
    (processComments s cs).contributors.reviewers = s.contributors.reviewers ∧
    (processComments s cs).contributors.reporters = s.contributors.reporters ∧
    (processComments s cs).userData = s.userData :=
  commFold_components _ s

theorem reporterStep_components (s : AggState) (a : String) :
    (reporterStep s a).contributors.committers = s.contributors.committers ∧
    (reporterStep s a).contributors.reviewers = s.contributors.reviewers ∧
    (reporterStep s a).contributors.commenters = s.contributors.commenters ∧
    (reporterStep s a).userData = s.userData := by
  unfold reporterStep
  split
  · exact ⟨rfl, rfl, rfl, rfl⟩
  · exact ⟨rfl, rfl, rfl, rfl⟩

theorem commentStep_components (s : AggState) (a : String) :
    (commentStep s a).contributors.committers = s.contributors.committers ∧
    (commentStep s a).contributors.reviewers = s.contributors.reviewers ∧
    (commentStep s a).contributors.reporters = s.contributors.reporters ∧
    (commentStep s a).userData = s.userData := by
  unfold commentStep
  split
  · exact ⟨rfl, rfl, rfl, rfl⟩
  · exact ⟨rfl, rfl, rfl, rfl⟩

theorem commFoldStep_components (K : List String) (s : AggState) :
    (K.foldl commentStep s).contributors.committers = s.contributors.committers ∧
    (K.foldl commentStep s).contributors.reviewers = s.contributors.reviewers ∧
    (K.foldl commentStep s).contributors.reporters = s.contributors.reporters ∧
    (K.foldl commentStep s).userData = s.userData := by
  induction K generalizing s with
  | nil => exact ⟨rfl, rfl, rfl, rfl⟩
  | cons a t ih =>
    have h := commentStep_components s a
    have h' := ih (commentStep s a)
    exact ⟨h'.1.trans h.1, h'.2.1.trans h.2.1, h'.2.2.1.trans h.2.2.1, h'.2.2.2.trans h.2.2.2⟩

theorem processIssue_components (s : AggState) (iss : LinkedIssue) :
    (processIssue s iss).contributors.committers = s.contributors.committers ∧
    (processIssue s iss).contributors.reviewers = s.contributors.reviewers ∧
    (processIssue s iss).userData = s.userData := by
  unfold processIssue
  have h := reporterStep_components s iss.author
  have h' := commFoldStep_components iss.comments (reporterStep s iss.author)
  exact ⟨h'.1.trans h.1, h'.2.1.trans h.2.1, h'.2.2.2.trans h.2.2.2⟩

theorem processIssues_components (issues : List LinkedIssue) (s : AggState) :
    (processIssues s issues).contributors.committers = s.contributors.committers ∧
    (processIssues s issues).contributors.reviewers = s.contributors.reviewers ∧
    (processIssues s issues).userData = s.userData := by
  induction issues generalizing s with
  | nil => exact ⟨rfl, rfl, rfl⟩
  | cons i t ih =>
    have h := processIssue_components s i
    have h' := ih (processIssue s i)
    exact ⟨h'.1.trans h.1, h'.2.1.trans h.2.1, h'.2.2.trans h.2.2⟩

/-! Preservation of the one-membership invariant through each phase. -/

theorem mem_filter_not_skip {s : AggState} {rs : List String} {x : String}
    (hx : x ∈ rs.filter (fun r => !(skipUser s.contributors r))) :
    skipUser s.contributors x = false := by
  have h := List.of_mem_filter hx
  simpa using h

theorem disjointSets_processReviews {s : AggState} (rs : List String)
    (hd : DisjointSets s.contributors) :
    DisjointSets (processReviews s rs).contributors := by
  obtain ⟨h1, h2, h3, h4, h5, h6⟩ := hd
  obtain ⟨hcom, hcm, hrp, _⟩ :=
    revFold_components (rs.filter (fun r => !(skipUser s.contributors r))) s
  have hmemK : ∀ x, x ∈ rs.filter (fun r => !(skipUser s.contributors r)) →
      x ∉ s.contributors.committers ∧ x ∉ s.contributors.commenters ∧
        x ∉ s.contributors.reporters := by
    intro x hx
    obtain ⟨_, hc, _, hm, hp⟩ := skipUser_eq_false_iff.mp (mem_filter_not_skip hx)
    exact ⟨hc, hm, hp⟩
  have hrev : ∀ x, x ∈ (processReviews s rs).contributors.reviewers →
      x ∈ s.contributors.reviewers ∨
        x ∈ rs.filter (fun r => !(skipUser s.contributors r)) := by
    intro x hx
    exact (mem_revFold _ s x).mp hx
  refine ⟨?_, ?_, ?_, ?_, ?_, ?_⟩
  · intro x hx hy
    rw [show (processReviews s rs).contributors.committers = s.contributors.committers
      from hcom] at hx
    rcases hrev x hy with h | h
    · exact h1 x hx h
    · exact (hmemK x h).1 hx
  · intro x hx hy
    rw [show (processReviews s rs).contributors.committers = s.contributors.committers
      from hcom] at hx
    rw [show (processReviews s rs).contributors.commenters = s.contributors.commenters
      from hcm] at hy
    exact h2 x hx hy
  · intro x hx hy
    rw [show (processReviews s rs).contributors.committers = s.contributors.committers
      from hcom] at hx
    rw [show (processReviews s rs).contributors.reporters = s.contributors.reporters
      from hrp] at hy
    exact h3 x hx hy
  · intro x hx hy
    rw [show (processReviews s rs).contributors.commenters = s.contributors.commenters
      from hcm] at hy
    rcases hrev x hx with h | h
    · exact h4 x h hy
    · exact (hmemK x h).2.1 hy
  · intro x hx hy
    rw [show (processReviews s rs).contributors.reporters = s.contributors.reporters
      from hrp] at hy
    rcases hrev x hx with h | h
    · exact h5 x h hy
    · exact (hmemK x h).2.2 hy
  · intro x hx hy
    rw [show (processReviews s rs).contributors.commenters = s.contributors.commenters
      from hcm] at hx
    rw [show (processReviews s rs).contributors.reporters = s.contributors.reporters
      from hrp] at hy
    exact h6 x hx hy

theorem disjointSets_processComments {s : AggState} (cs : List String)
    (hd : DisjointSets s.contributors) :
    DisjointSets (processComments s cs).contributors := by
  obtain ⟨h1, h2, h3, h4, h5, h6⟩ := hd
  obtain ⟨hcom, hrv, hrp, _⟩ :=
    commFold_components (cs.filter (fun r => !(skipUser s.contributors r))) s
  have hmemK : ∀ x, x ∈ cs.filter (fun r => !(skipUser s.contributors r)) →
      x ∉ s.contributors.committers ∧ x ∉ s.contributors.reviewers ∧
        x ∉ s.contributors.reporters := by
    intro x hx
    obtain ⟨_, hc, hr, _, hp⟩ := skipUser_eq_false_iff.mp (mem_filter_not_skip hx)
    exact ⟨hc, hr, hp⟩
  have hcm : ∀ x, x ∈ (processComments s cs).contributors.commenters →
      x ∈ s.contributors.commenters ∨
        x ∈ cs.filter (fun r => !(skipUser s.contributors r)) := by
    intro x hx
    exact (mem_commFold _ s x).mp hx
  refine ⟨?_, ?_, ?_, ?_, ?_, ?_⟩
  · intro x hx hy
    rw [show (processComments s cs).contributors.committers = s.contributors.committers
      from hcom] at hx
    rw [show (processComments s cs).contributors.reviewers = s.contributors.reviewers
      from hrv] at hy
    exact h1 x hx hy
  · intro x hx hy
    rw [show (processComments s cs).contributors.committers = s.contributors.committers
      from hcom] at hx
    rcases hcm x hy with h | h
    · exact h2 x hx h
    · exact (hmemK x h).1 hx
  · intro x hx hy
    rw [show (processComments s cs).contributors.committers = s.contributors.committers
      from hcom] at hx
    rw [show (processComments s cs).contributors.reporters = s.contributors.reporters
      from hrp] at hy
    exact h3 x hx hy
  · intro x hx hy
    rw [show (processComments s cs).contributors.reviewers = s.contributors.reviewers
      from hrv] at hx
    rcases hcm x hy with h | h
    · exact h4 x hx h
    · exact (hmemK x h).2.1 hx
  · intro x hx hy
    rw [show (processComments s cs).contributors.reviewers = s.contributors.reviewers
      from hrv] at hx
    rw [show (processComments s cs).contributors.reporters = s.contributors.reporters
      from hrp] at hy
    exact h5 x hx hy
  · intro x hx hy
    rw [show (processComments s cs).contributors.reporters = s.contributors.reporters
      from hrp] at hy
    rcases hcm x hx with h | h
    · exact h6 x h hy
    · exact (hmemK x h).2.2 hy

theorem disjointSets_addCommenter {s : AggState} {a : String}
    (hd : DisjointSets s.contributors) (ha : skipUser s.contributors a = false) :
    DisjointSets (addCommenter s a).contributors := by
  obtain ⟨h1, h2, h3, h4, h5, h6⟩ := hd
  obtain ⟨_, hc, hr, hm, hp⟩ := skipUser_eq_false_iff.mp ha
  refine ⟨h1, ?_, h3, ?_, h5, ?_⟩
  · intro x hx hy
    rcases mem_setAdd.mp hy with h | rfl
    · exact h2 x hx h
    · exact hc hx
  · intro x hx hy
    rcases mem_setAdd.mp hy with h | rfl
    · exact h4 x hx h
    · exact hr hx
  · intro x hx hy
    rcases mem_setAdd.mp hx with h | rfl
    · exact h6 x h hy
    · exact hp hy

theorem disjointSets_addReporter {s : AggState} {a : String}
    (hd : DisjointSets s.contributors) (ha : skipUser s.contributors a = false) :
    DisjointSets (addReporter s a).contributors := by
  obtain ⟨h1, h2, h3, h4, h5, h6⟩ := hd
  obtain ⟨_, hc, hr, hm, hp⟩ := skipUser_eq_false_iff.mp ha
  refine ⟨h1, h2, ?_, h4, ?_, ?_⟩
  · intro x hx hy
    rcases mem_setAdd.mp hy with h | rfl
    · exact h3 x hx h
    · exact hc hx
  · intro x hx hy
    rcases mem_setAdd.mp hy with h | rfl
    · exact h5 x hx h
    · exact hr hx
  · intro x hx hy
    rcases mem_setAdd.mp hy with h | rfl
    · exact h6 x hx h
    · exact hm hx

theorem disjointSets_commentStep {s : AggState} (a : String)
    (hd : DisjointSets s.contributors) :
    DisjointSets (commentStep s a).contributors := by
  unfold commentStep
  split
  · exact hd
  · rename_i h
    rw [Bool.not_eq_true] at h
    exact disjointSets_addCommenter hd h

theorem disjointSets_reporterStep {s : AggState} (a : String)
    (hd : DisjointSets s.contributors) :
    DisjointSets (reporterStep s a).contributors := by
  unfold reporterStep
  split
  · rename_i h
    rw [Bool.not_eq_true'] at h
    exact disjointSets_addReporter hd h
  · exact hd

theorem disjointSets_commFoldStep {s : AggState} (K : List String)
    (hd : DisjointSets s.contributors) :
    DisjointSets (K.foldl commentStep s).contributors := by
  induction K generalizing s with
  | nil => exact hd
  | cons a t ih => exact ih (disjointSets_commentStep a hd)

theorem disjointSets_processIssue {s : AggState} (iss : LinkedIssue)
    (hd : DisjointSets s.contributors) :
    DisjointSets (processIssue s iss).contributors :=
  disjointSets_commFoldStep iss.comments (disjointSets_reporterStep iss.author hd)

theorem disjointSets_processIssues {s : AggState} (issues : List LinkedIssue)
    (hd : DisjointSets s.contributors) :
    DisjointSets (processIssues s issues).contributors := by
  induction issues generalizing s with
  | nil => exact hd
  | cons i t ih => exact ih (disjointSets_processIssue i hd)

theorem disjointSets_after_commits (cs : List CommitAuthor) :
    DisjointSets (processCommits emptyState cs).contributors := by
  obtain ⟨hr, hm, hp⟩ := processCommits_others cs emptyState
  have hrnil : (processCommits emptyState cs).contributors.reviewers = [] := hr
  have hmnil : (processCommits emptyState cs).contributors.commenters = [] := hm
  have hpnil : (processCommits emptyState cs).contributors.reporters = [] := hp
  refine ⟨?_, ?_, ?_, ?_, ?_, ?_⟩ <;> intro x hx hy
  · rw [hrnil] at hy; cases hy
  · rw [hmnil] at hy; cases hy
  · rw [hpnil] at hy; cases hy
  · rw [hmnil] at hy; cases hy
  · rw [hpnil] at hy; cases hy
  · rw [hpnil] at hy; cases hy

/-- The aggregation pass of a fresh run keeps the four category sets
pairwise disjoint: no key ever belongs to two categories. -/
theorem aggregate_disjoint (d : ContributorData) :
    DisjointSets (aggregate d).contributors :=
  disjointSets_processIssues d.closingIssuesReferences
    (disjointSets_processComments d.comments
      (disjointSets_processReviews d.reviews
        (disjointSets_after_commits d.commits)))

/-! A non-excluded login appearing as a linked commit author is recorded as
a committer. -/

theorem mem_committers_of_linked_commit {login : String} (hns : login ∉ skippedUsers)
    (cs : List CommitAuthor) :
    ∀ s : AggState, s.contributors.reviewers = [] → s.contributors.commenters = [] →
      s.contributors.reporters = [] →
      (∃ c ∈ cs, ∃ u, c.user = some u ∧ u.login = login) →
      login ∈ (processCommits s cs).contributors.committers := by
  induction cs with
  | nil =>
    intro s _ _ _ hc
    obtain ⟨c, hcmem, _⟩ := hc
    cases hcmem
  | cons c t ih =>
    intro s hr hm hp hc
    obtain ⟨c₀, hc₀, u, hu, hl⟩ := hc
    rcases List.mem_cons.mp hc₀ with heq | hmem
    · subst heq
      have hstep : login ∈ (processCommit s c₀).contributors.committers := by
        subst hl
        by_cases hskip : skipUser s.contributors u.login = true
        · rcases skipUser_eq_true_iff.mp hskip with h | h | h | h | h
          · exact absurd h hns
          · simpa [processCommit, hu, hskip] using h
          · rw [hr] at h; cases h
          · rw [hm] at h; cases h
          · rw [hp] at h; cases h
        · simpa [processCommit, hu, hskip] using
            mem_setAdd_self s.contributors.committers u.login
      exact mem_committers_processCommits t hstep
    · have h₂ := processCommit_others s c
      exact ih (processCommit s c) (h₂.1.trans hr) (h₂.2.1.trans hm)
        (h₂.2.2.trans hp) ⟨c₀, hmem, u, hu, hl⟩

/-! An excluded login is never inserted through any login-checked channel. -/

theorem skipped_notin_processCommits {u : String} (hu : u ∈ skippedUsers)
    (cs : List CommitAuthor) :
    ∀ s : AggState, u ∉ s.contributors.committers →
      (∀ c ∈ cs, c.user = none → c.email ≠ u) →
      u ∉ (processCommits s cs).contributors.committers := by
  induction cs with
  | nil => intro s h _; exact h
  | cons c t ih =>
    intro s h hem
    apply ih (processCommit s c)
    · rcases c with ⟨user, name, email⟩
      cases user with
      | none =>
        intro hmem
        rcases mem_setAdd.mp hmem with h' | h'
        · exact h h'
        · exact (hem ⟨none, name, email⟩ (List.mem_cons_self _ _) rfl) h'.symm
      | some v =>
        by_cases hskip : skipUser s.contributors v.login = true
        · simpa [processCommit, hskip] using h
        · rw [Bool.not_eq_true] at hskip
          have hne : v.login ≠ u := ne_of_not_skipped hu hskip
          intro hmem
          rcases mem_setAdd.mp (by simpa [processCommit, hskip] using hmem) with h' | h'
          · exact h h'
          · exact hne h'.symm
    · intro c' hc' hnone
      exact hem c' (List.mem_cons_of_mem _ hc') hnone

theorem skipped_notin_processReviews {u : String} (hu : u ∈ skippedUsers)
    (rs : List String) {s : AggState} (h : u ∉ s.contributors.reviewers) :
    u ∉ (processReviews s rs).contributors.reviewers := by
  intro hmem
  rcases (mem_revFold _ s u).mp hmem with h' | h'
  · exact h h'
  · have hfalse := mem_filter_not_skip h'
    rw [skipUser_of_skipped hu] at hfalse
    cases hfalse

theorem skipped_notin_processComments {u : String} (hu : u ∈ skippedUsers)
    (cs : List String) {s : AggState} (h : u ∉ s.contributors.commenters) :
    u ∉ (processComments s cs).contributors.commenters := by
  intro hmem
  rcases (mem_commFold _ s u).mp hmem with h' | h'
  · exact h h'
  · have hfalse := mem_filter_not_skip h'
    rw [skipUser_of_skipped hu] at hfalse
    cases hfalse

theorem skipped_notin_commentStep {u : String} (hu : u ∈ skippedUsers)
    (a : String) {s : AggState} (h : u ∉ s.contributors.commenters) :
    u ∉ (commentStep s a).contributors.commenters := by
  unfold commentStep
  split
  · exact h
  · rename_i hsk
    rw [Bool.not_eq_true] at hsk
    intro hmem
    rcases mem_setAdd.mp hmem with h' | h'
    · exact h h'
    · exact (ne_of_not_skipped hu hsk) h'.symm

theorem skipped_notin_commFold {u : String} (hu : u ∈ skippedUsers)
    (K : List String) :
    ∀ s : AggState, u ∉ s.contributors.commenters →
      u ∉ (K.foldl commentStep s).contributors.commenters := by
  induction K with
  | nil => intro s h; exact h
  | cons a t ih => intro s h; exact ih _ (skipped_notin_commentStep hu a h)

theorem skipped_notin_reporterStep {u : String} (hu : u ∈ skippedUsers)
    (a : String) {s : AggState} (h : u ∉ s.contributors.reporters) :
    u ∉ (reporterStep s a).contributors.reporters := by
  unfold reporterStep
  split
  · rename_i hsk
    rw [Bool.not_eq_true'] at hsk
    intro hmem
    rcases mem_setAdd.mp hmem with h' | h'
    · exact h h'
    · exact (ne_of_not_skipped hu hsk) h'.symm
  · exact h

theorem skipped_notin_processIssues_commenters {u : String} (hu : u ∈ skippedUsers)
    (issues : List LinkedIssue) :
    ∀ s : AggState, u ∉ s.contributors.commenters →
      u ∉ (processIssues s issues).contributors.commenters := by
  induction issues with
  | nil => intro s h; exact h
  | cons i t ih =>
    intro s h
    apply ih
    unfold processIssue
    apply skipped_notin_commFold hu
    rw [(reporterStep_components s i.author).2.2.1]
    exact h

theorem skipped_notin_processIssues_reporters {u : String} (hu : u ∈ skippedUsers)
    (issues : List LinkedIssue) :
    ∀ s : AggState, u ∉ s.contributors.reporters →
      u ∉ (processIssues s issues).contributors.reporters := by
  induction issues with
  | nil => intro s h; exact h
  | cons i t ih =>
    intro s h
    apply ih
    unfold processIssue
    rw [(commFoldStep_components i.comments (reporterStep s i.author)).2.2.1]
    exact skipped_notin_reporterStep hu i.author h

theorem skipped_user_never_credited {u : String} (hu : u ∈ skippedUsers)
    (d : ContributorData) (hem : ∀ c ∈ d.commits, c.user = none → c.email ≠ u) :
    u ∉ (aggregate d).contributors.committers ∧
    u ∉ (aggregate d).contributors.reviewers ∧
    u ∉ (aggregate d).contributors.commenters ∧
    u ∉ (aggregate d).contributors.reporters := by
  unfold aggregate aggregateFrom
  set s₁ := processCommits emptyState d.commits with hs₁
  set s₂ := processReviews s₁ d.reviews with hs₂
  set s₃ := processComments s₂ d.comments with hs₃
  refine ⟨?_, ?_, ?_, ?_⟩
  · rw [(processIssues_components d.closingIssuesReferences s₃).1,
      (processComments_components s₂ d.comments).1,
      (processReviews_components s₁ d.reviews).1]
    exact skipped_notin_processCommits hu d.commits emptyState
      (List.not_mem_nil u) hem
  · rw [(processIssues_components d.closingIssuesReferences s₃).2.1,
      (processComments_components s₂ d.comments).2.1]
    apply skipped_notin_processReviews hu
    rw [(processCommits_others d.commits emptyState).1]
    exact List.not_mem_nil u
  · apply skipped_notin_processIssues_commenters hu
    apply skipped_notin_processComments hu
    rw [(processReviews_components s₁ d.reviews).2.1,
      (processCommits_others d.commits emptyState).2.1]
    exact List.not_mem_nil u
  · apply skipped_notin_processIssues_reporters hu
    rw [(processComments_components s₂ d.comments).2.2.1,
      (processReviews_components s₁ d.reviews).2.2.1,
      (processCommits_others d.commits emptyState).2.2]
    exact List.not_mem_nil u

/-! Email-fallback commits: last write wins in the profile table, and the
email key enters `committers` exactly once. -/

theorem processCommits_email_stable {e : String} (cs : List CommitAuthor) :
    ∀ s : AggState, e ∈ s.contributors.committers →
      emailFallbackCommits cs e = [] →
      e ∈ (processCommits s cs).contributors.committers ∧
      udGet (processCommits s cs).userData e = udGet s.userData e := by
  induction cs with
  | nil => intro s hmem _; exact ⟨hmem, rfl⟩
  | cons c t ih =>
    intro s hmem hnone
    have hc : ¬((c.user.isNone && (c.email == e)) = true) := by
      intro hcc
      have hin : c ∈ emailFallbackCommits (c :: t) e :=
        List.mem_filter.mpr ⟨List.mem_cons_self c t, hcc⟩
      rw [hnone] at hin
      cases hin
    have ht : emailFallbackCommits t e = [] := by
      unfold emailFallbackCommits at hnone ⊢
      rw [List.filter_cons] at hnone
      split at hnone
      · cases hnone
      · exact hnone
    have hstep : e ∈ (processCommit s c).contributors.committers ∧
        udGet (processCommit s c).userData e = udGet s.userData e := by
      rcases c with ⟨user, name, email⟩
      cases user with
      | none =>
        have hne : email ≠ e := by simpa using hc
        refine ⟨mem_setAdd_of_mem _ hmem, ?_⟩
        exact udGet_udSet_ne s.userData (emailProfile ⟨none, name, email⟩) (Ne.symm hne)
      | some v =>
        by_cases hskip : skipUser s.contributors v.login = true
        · constructor
          · simpa [processCommit, hskip] using hmem
          · simp [processCommit, hskip]
        · have hvne : v.login ≠ e := by
            intro hveq
            rw [Bool.not_eq_true] at hskip
            obtain ⟨_, hcm, _, _, _⟩ := skipUser_eq_false_iff.mp hskip
            rw [hveq] at hcm
            exact hcm hmem
          constructor
          · simpa [processCommit, hskip] using mem_setAdd_of_mem v.login hmem
          · rw [Bool.not_eq_true] at hskip
            show udGet (processCommit s ⟨some v, name, email⟩).userData e = _
            simp only [processCommit, hskip, Bool.false_eq_true, if_false]
            exact udGet_udSet_ne s.userData (gqlToProfile v) (Ne.symm hvne)
    obtain ⟨hm2, hu2⟩ := ih (processCommit s c) hstep.1 ht
    exact ⟨hm2, hu2.trans hstep.2⟩

theorem processCommits_email_last {e : String} (cs : List CommitAuthor) :
    ∀ s : AggState, emailFallbackCommits cs e ≠ [] →
      e ∈ (processCommits s cs).contributors.committers ∧
      ∃ c, (emailFallbackCommits cs e).getLast? = some c ∧
        udGet (processCommits s cs).userData e = some (emailProfile c) := by
  induction cs with
  | nil => intro s hne; exact absurd rfl hne
  | cons c t ih =>
    intro s hne
    by_cases hc : (c.user.isNone && (c.email == e)) = true
    · have huser : c.user = none := Option.isNone_iff_eq_none.mp (Bool.and_elim_left hc)
      have hemail : c.email = e := by simpa using Bool.and_elim_right hc
      have hfc : emailFallbackCommits (c :: t) e = c :: emailFallbackCommits t e := by
        unfold emailFallbackCommits
        rw [List.filter_cons, if_pos hc]
      have hmem₀ : e ∈ (processCommit s c).contributors.committers := by
        rcases c with ⟨user, name, email⟩
        cases huser
        simp only at hemail
        subst hemail
        exact mem_setAdd_self _ _
      have hud₀ : udGet (processCommit s c).userData e =
          some (emailProfile c) := by
        rcases c with ⟨user, name, email⟩
        cases huser
        simp only at hemail
        subst hemail
        exact udGet_udSet_self s.userData _ _
      by_cases htail : emailFallbackCommits t e = []
      · obtain ⟨hm, hu⟩ := processCommits_email_stable t (processCommit s c) hmem₀ htail
        refine ⟨hm, c, ?_, hu.trans hud₀⟩
        rw [hfc, htail]
        rfl
      · obtain ⟨hm, c', hlast, hud⟩ := ih (processCommit s c) htail
        refine ⟨hm, c', ?_, hud⟩
        rw [hfc]
        rcases hK : emailFallbackCommits t e with _ | ⟨k, ks⟩
        · exact absurd hK htail
        · rw [List.getLast?_cons_cons]
          rw [hK] at hlast
          exact hlast
    · have hfc : emailFallbackCommits (c :: t) e = emailFallbackCommits t e := by
        unfold emailFallbackCommits
        rw [List.filter_cons, if_neg hc]
      rw [hfc] at hne
      obtain ⟨hm, hstep⟩ : e ∈ (processCommits (processCommit s c) t).contributors.committers ∧
          ∃ c', (emailFallbackCommits t e).getLast? = some c' ∧
            udGet (processCommits (processCommit s c) t).userData e = some (emailProfile c') :=
        ih (processCommit s c) hne
      obtain ⟨c', hlast, hud⟩ := hstep
      exact ⟨hm, c', by rw [hfc]; exact hlast, hud⟩

theorem aggregate_email_fallback {e : String} (d : ContributorData)
    (hne : emailFallbackCommits d.commits e ≠ []) :
    e ∈ (aggregate d).contributors.committers ∧
    (aggregate d).contributors.committers.count e = 1 ∧
    ∃ c, (emailFallbackCommits d.commits e).getLast? = some c ∧
      udGet (aggregate d).userData e = some (emailProfile c) := by
  obtain ⟨hm, c, hlast, hud⟩ := processCommits_email_last d.commits emptyState hne
  unfold aggregate aggregateFrom
  set s₁ := processCommits emptyState d.commits with hs₁
  set s₂ := processReviews s₁ d.reviews with hs₂
  set s₃ := processComments s₂ d.comments with hs₃
  have hcomeq : (processIssues s₃ d.closingIssuesReferences).contributors.committers =
      s₁.contributors.committers := by
    rw [(processIssues_components d.closingIssuesReferences s₃).1,
      (processComments_components s₂ d.comments).1,
      (processReviews_components s₁ d.reviews).1]
  have hudeq : (processIssues s₃ d.closingIssuesReferences).userData = s₁.userData := by
    rw [(processIssues_components d.closingIssuesReferences s₃).2.2,
      (processComments_components s₂ d.comments).2.2.2,
      (processReviews_components s₁ d.reviews).2.2.2]
  have hnodup : s₁.contributors.committers.Nodup :=
    nodup_committers_processCommits d.commits List.nodup_nil
  refine ⟨?_, ?_, c, hlast, ?_⟩
  · rw [hcomeq]; exact hm
  · rw [hcomeq]; exact List.count_eq_one_of_mem hnodup hm
  · rw [hudeq]; exact hud

/-! The profile backfill stores, under every requested login, the profile
the batched query returned for that login. -/

theorem udGet_storeUsers_not_mem (oracle : String → GqlUser)
    (hlogin : ∀ l, (oracle l).login = l) (xs : List String) :
    ∀ (ud : UserData) (k : String), k ∉ xs →
      udGet (storeUsers ud (xs.map oracle)) k = udGet ud k := by
  induction xs with
  | nil => intro ud k _; rfl
  | cons x t ih =>
    intro ud k hk
    have hkx : k ≠ x := fun h => hk (h ▸ List.mem_cons_self x t)
    have hkt : k ∉ t := fun h => hk (List.mem_cons_of_mem x h)
    show udGet (storeUsers (udSet ud (oracle x).login (gqlToProfile (oracle x)))
      (t.map oracle)) k = udGet ud k
    rw [ih _ k hkt, hlogin x]
    exact udGet_udSet_ne ud _ hkx

theorem udGet_storeUsers_mem (oracle : String → GqlUser)
    (hlogin : ∀ l, (oracle l).login = l) (xs : List String) :
    ∀ (ud : UserData) (k : String), k ∈ xs →
      udGet (storeUsers ud (xs.map oracle)) k = some (gqlToProfile (oracle k)) := by
  induction xs with
  | nil => intro ud k hk; cases hk
  | cons x t ih =>
    intro ud k hk
    by_cases hkt : k ∈ t
    · exact ih _ k hkt
    · have hkx : k = x := by
        rcases List.mem_cons.mp hk with h | h
        · exact h
        · exact absurd h hkt
      subst hkx
      show udGet (storeUsers (udSet ud (oracle k).login (gqlToProfile (oracle k)))
        (t.map oracle)) k = _
      rw [udGet_storeUsers_not_mem oracle hlogin t _ k hkt, hlogin k]
      exact udGet_udSet_self ud k _

/-! Monotonicity: an aggregation pass never removes a recorded member. -/

theorem mem_commenters_commentStep {s : AggState} {x : String} (a : String)
    (h : x ∈ s.contributors.commenters) :
    x ∈ (commentStep s a).contributors.commenters := by
  unfold commentStep
  split
  · exact h
  · exact mem_setAdd_of_mem _ h

theorem mem_commenters_commFold (K : List String) {x : String} :
    ∀ s : AggState, x ∈ s.contributors.commenters →
      x ∈ (K.foldl commentStep s).contributors.commenters := by
  induction K with
  | nil => intro s h; exact h
  | cons a t ih => intro s h; exact ih _ (mem_commenters_commentStep a h)

theorem mem_reporters_reporterStep {s : AggState} {x : String} (a : String)
    (h : x ∈ s.contributors.reporters) :
    x ∈ (reporterStep s a).contributors.reporters := by
  unfold reporterStep
  split
  · exact mem_setAdd_of_mem _ h
  · exact h

theorem mem_commenters_processIssues (issues : List LinkedIssue) {x : String} :
    ∀ s : AggState, x ∈ s.contributors.commenters →
      x ∈ (processIssues s issues).contributors.commenters := by
  induction issues with
  | nil => intro s h; exact h
  | cons i t ih =>
    intro s h
    apply ih
    unfold processIssue
    apply mem_commenters_commFold
    rw [(reporterStep_components s i.author).2.2.1]
    exact h

theorem mem_reporters_processIssues (issues : List LinkedIssue) {x : String} :
    ∀ s : AggState, x ∈ s.contributors.reporters →
      x ∈ (processIssues s issues).contributors.reporters := by
  induction issues with
  | nil => intro s h; exact h
  | cons i t ih =>
    intro s h
    apply ih
    unfold processIssue
    rw [(commFoldStep_components i.comments (reporterStep s i.author)).2.2.1]
    exact mem_reporters_reporterStep i.author h

theorem aggregateFrom_monotone (s : AggState) (d : ContributorData) :
    (∀ x, x ∈ s.contributors.committers →
        x ∈ (aggregateFrom s d).contributors.committers) ∧
    (∀ x, x ∈ s.contributors.reviewers →
        x ∈ (aggregateFrom s d).contributors.reviewers) ∧
    (∀ x, x ∈ s.contributors.commenters →
        x ∈ (aggregateFrom s d).contributors.commenters) ∧
    (∀ x, x ∈ s.contributors.reporters →
        x ∈ (aggregateFrom s d).contributors.reporters) := by
  unfold aggregateFrom
  set s₁ := processCommits s d.commits with hs₁
  set s₂ := processReviews s₁ d.reviews with hs₂
  set s₃ := processComments s₂ d.comments with hs₃
  refine ⟨?_, ?_, ?_, ?_⟩
  · intro x hx
    rw [(processIssues_components d.closingIssuesReferences s₃).1,
      (processComments_components s₂ d.comments).1,
      (processReviews_components s₁ d.reviews).1]
    exact mem_committers_processCommits d.commits hx
  · intro x hx
    rw [(processIssues_components d.closingIssuesReferences s₃).2.1,
      (processComments_components s₂ d.comments).2.1]
    rw [hs₂, processReviews]
    rw [mem_revFold]
    left
    rw [(processCommits_others d.commits s).1]
    exact hx
  · intro x hx
    apply mem_commenters_processIssues
    rw [hs₃, processComments]
    rw [mem_commFold]
    left
    rw [(processReviews_components s₁ d.reviews).2.1,
      (processCommits_others d.commits s).2.1]
    exact hx
  · intro x hx
    apply mem_reporters_processIssues
    rw [(processComments_components s₂ d.comments).2.2.1,
      (processReviews_components s₁ d.reviews).2.2.1,
      (processCommits_others d.commits s).2.2]
    exact hx

/-! Sanitizer characterization. -/

theorem replaceGqlChars_eq_map (cs : List Char) :
    replaceGqlChars cs = cs.map gqlEscapeChar := by
  induction cs with
  | nil => rfl
  | cons c t ih => simp [replaceGqlChars, ih]

theorem escapeForGql_data (s : String) :
    (escapeForGql s).data = '_' :: s.data.map gqlEscapeChar := by
  show ("_" ++ String.mk (replaceGqlChars s.data)).data = _
  rw [replaceGqlChars_eq_map]
  rfl

theorem gqlEscapeChar_not_forbidden (c : Char) :
    gqlEscapeChar c ≠ '.' ∧ gqlEscapeChar c ≠ '/' ∧ gqlEscapeChar c ≠ '-' := by
  unfold gqlEscapeChar
  split
  · exact ⟨by decide, by decide, by decide⟩
  · rename_i h
    simp only [Bool.or_eq_true, decide_eq_true_eq, not_or] at h
    exact ⟨h.1.1, h.1.2, h.2⟩

/-! The claim theorems. -/

/-- Claim C1: after `aggregate` completes, every identity key — in
particular every key inserted via a platform login — belongs to at most one
of the four category sets.  The theorem establishes pairwise disjointness
of all four sets for every input, so the commit-email exemption is never
even needed. -/
theorem c1_one_membership_invariant (d : ContributorData) :
    DisjointSets (aggregate d).contributors :=
  aggregate_disjoint d

/-- Claim C1 witness: the invariant evaluated on a concrete input. -/
theorem c1_one_membership_invariant_witness :
    DisjointSets (aggregate aliceCommitReviewData).contributors :=
  c1_one_membership_invariant aliceCommitReviewData

/-- Claim C4: with the directory responding with a slug record for alice
and the literal false for bob, the merge attaches alice's handle only;
rendering then yields exactly one trailer line for alice of the documented
form, no trailer line for bob, and the unresolved list holding bob. -/
theorem c4_directory_roundtrip :
    entryFor (mergeDirectory roundTripUserData roundTripDir) "alice" =
      some "Co-authored-by: alice <alice-wp@git.wordpress.org>" ∧
    entryFor (mergeDirectory roundTripUserData roundTripDir) "bob" = none ∧
    render roundTripContributors (mergeDirectory roundTripUserData roundTripDir) =
      ("# Committers\nCo-authored-by: alice <alice-wp@git.wordpress.org>\n\n\n# Reviewers\n\n\n# Commenters\n\n\n# Reporters\n",
        ["bob"]) :=
  ⟨rfl, rfl, rfl⟩

/-- Claim C5: the renderer is meant to skip empty categories, but its guard
reads the nonexistent `length` property of a `Set` (which is `undefined`,
never `=== 0`), so a category with zero members still emits its header
line: with only alice as a committer, the output contains the Reviewers,
Commenters and Reporters headers over empty sections, against the code's
own comment and the spec. -/
theorem c5_empty_category_headers_emitted :
    soloContributors.reviewers = [] ∧
    soloContributors.commenters = [] ∧
    soloContributors.reporters = [] ∧
    renderText soloContributors soloUserData =
      "# Committers\nCo-authored-by: alice <alice-wp@git.wordpress.org>\n\n# Reviewers\n\n\n# Commenters\n\n\n# Reporters\n" :=
  ⟨rfl, rfl, rfl, rfl⟩

/-- Claim C7 counterexample: the sanitizer does not replace every character
outside letters and digits — a space survives, so the output differs from
the spec-worded policy. -/
theorem c7_counterexample :
    escapeForGql "a b" = "_a b" ∧ escapeForGql "a b" ≠ specSanitize "a b" :=
  ⟨rfl, by decide⟩

/-- Claim C7 (amended): the sanitizer prefixes an underscore and replaces
exactly the characters dot, slash and dash with underscores (so none of
those three survive), and sanitizing foo.bar-baz yields _foo_bar_baz; it is
a pure total function. -/
theorem c7_sanitizer_replaces_dot_slash_dash (s : String) :
    (escapeForGql s).data = '_' :: s.data.map gqlEscapeChar ∧
    (∀ ch ∈ (escapeForGql s).data, ch ≠ '.' ∧ ch ≠ '/' ∧ ch ≠ '-') ∧
    escapeForGql "foo.bar-baz" = "_foo_bar_baz" := by
  refine ⟨escapeForGql_data s, ?_, rfl⟩
  intro ch hch
  rw [escapeForGql_data] at hch
  rcases List.mem_cons.mp hch with rfl | hch
  · exact ⟨by decide, by decide, by decide⟩
  · obtain ⟨c, _, rfl⟩ := List.mem_map.mp hch
    exact gqlEscapeChar_not_forbidden c

/-- Claim C7 witness: the amended sanitizer theorem applied to the
documented example input. -/
theorem c7_sanitizer_replaces_dot_slash_dash_witness :
    escapeForGql "foo.bar-baz" = "_foo_bar_baz" :=
  (c7_sanitizer_replaces_dot_slash_dash "foo.bar-baz").2.2

/-- Claim C2 counterexample: the excluded login github-actions appears both
as a linked-account commit author and as a review author, yet after
aggregation it is not a member of `committers` — so the claim as stated,
quantified over every login, fails on excluded logins. -/
theorem c2_counterexample :
    (∃ c ∈ botCommitReviewData.commits, ∃ u, c.user = some u ∧
        u.login = "github-actions") ∧
    "github-actions" ∈ botCommitReviewData.reviews ∧
    "github-actions" ∉ (aggregate botCommitReviewData).contributors.committers := by
  refine ⟨⟨_, List.mem_cons_self _ _, botUser, rfl, rfl⟩, ?_, ?_⟩
  · decide
  · decide

/-- Claim C2 (amended): for every login not on the exclusion list that
appears both as a linked-account commit author and as a review author in
the same input, after aggregation the login is a member of `committers` and
of no other category set. -/
theorem c2_commit_and_review_only_committer (d : ContributorData) (login : String)
    (hns : login ∉ skippedUsers)
    (hcommit : ∃ c ∈ d.commits, ∃ u, c.user = some u ∧ u.login = login)
    (hreview : login ∈ d.reviews) :
    login ∈ (aggregate d).contributors.committers ∧
    login ∉ (aggregate d).contributors.reviewers ∧
    login ∉ (aggregate d).contributors.commenters ∧
    login ∉ (aggregate d).contributors.reporters := by
  have hmem : login ∈ (aggregate d).contributors.committers := by
    unfold aggregate aggregateFrom
    set s₁ := processCommits emptyState d.commits with hs₁
    set s₂ := processReviews s₁ d.reviews with hs₂
    set s₃ := processComments s₂ d.comments with hs₃
    rw [(processIssues_components d.closingIssuesReferences s₃).1,
      (processComments_components s₂ d.comments).1,
      (processReviews_components s₁ d.reviews).1]
    exact mem_committers_of_linked_commit hns d.commits emptyState rfl rfl rfl hcommit
  obtain ⟨h1, h2, h3, _, _, _⟩ := aggregate_disjoint d
  exact ⟨hmem, h1 login hmem, h2 login hmem, h3 login hmem⟩

/-- Claim C2 witness: the amended theorem applied to a run with one linked
commit and one review by alice. -/
theorem c2_commit_and_review_only_committer_witness :
    "alice" ∈ (aggregate aliceCommitReviewData).contributors.committers ∧
    "alice" ∉ (aggregate aliceCommitReviewData).contributors.reviewers ∧
    "alice" ∉ (aggregate aliceCommitReviewData).contributors.commenters ∧
    "alice" ∉ (aggregate aliceCommitReviewData).contributors.reporters :=
  c2_commit_and_review_only_committer aliceCommitReviewData "alice" (by decide)
    ⟨_, List.mem_cons_self _ _, aliceUser, rfl, rfl⟩ (by decide)

/-- Claim C3 counterexample: with github-actions appearing in every
login-checked channel and, additionally, one unlinked commit carrying the
literal fallback email github-actions, the email-fallback path inserts that
key into `committers` without consulting the exclusion list — so the claim
as stated fails. -/
theorem c3_counterexample :
    (∃ c ∈ botEverywhereEmailData.commits, ∃ u, c.user = some u ∧
        u.login = "github-actions") ∧
    "github-actions" ∈ botEverywhereEmailData.reviews ∧
    "github-actions" ∈ botEverywhereEmailData.comments ∧
    (∃ i ∈ botEverywhereEmailData.closingIssuesReferences,
        i.author = "github-actions") ∧
    (∃ i ∈ botEverywhereEmailData.closingIssuesReferences,
        "github-actions" ∈ i.comments) ∧
    "github-actions" ∈ (aggregate botEverywhereEmailData).contributors.committers := by
  refine ⟨⟨_, List.mem_cons_self _ _, botUser, rfl, rfl⟩, ?_, ?_, ?_, ?_, ?_⟩
  · decide
  · decide
  · exact ⟨_, List.mem_cons_self _ _, rfl⟩
  · exact ⟨_, List.mem_cons_self _ _, by decide⟩
  · decide

/-- Claim C3 (amended): when the excluded login github-actions appears as a
linked commit author, a review author, a comment author, a linked-issue
author and a linked-issue comment author — and no unlinked commit carries
the literal fallback email github-actions — after aggregation the login is
a member of none of the four category sets. -/
theorem c3_excluded_login_never_credited (d : ContributorData)
    (hcommit : ∃ c ∈ d.commits, ∃ u, c.user = some u ∧ u.login = "github-actions")
    (hreview : "github-actions" ∈ d.reviews)
    (hcomment : "github-actions" ∈ d.comments)
    (hissue : ∃ i ∈ d.closingIssuesReferences, i.author = "github-actions")
    (hisscomment : ∃ i ∈ d.closingIssuesReferences, "github-actions" ∈ i.comments)
    (hemail : ∀ c ∈ d.commits, c.user = none → c.email ≠ "github-actions") :
    "github-actions" ∉ (aggregate d).contributors.committers ∧
    "github-actions" ∉ (aggregate d).contributors.reviewers ∧
    "github-actions" ∉ (aggregate d).contributors.commenters ∧
    "github-actions" ∉ (aggregate d).contributors.reporters :=
  skipped_user_never_credited (by decide) d hemail

/-- Claim C3 witness: the amended theorem applied to a run where the bot
appears in all five channels (and no email collision occurs). -/
theorem c3_excluded_login_never_credited_witness :
    "github-actions" ∉ (aggregate botEverywhereData).contributors.committers ∧
    "github-actions" ∉ (aggregate botEverywhereData).contributors.reviewers ∧
    "github-actions" ∉ (aggregate botEverywhereData).contributors.commenters ∧
    "github-actions" ∉ (aggregate botEverywhereData).contributors.reporters :=
  c3_excluded_login_never_credited botEverywhereData
    ⟨_, List.mem_cons_self _ _, botUser, rfl, rfl⟩ (by decide) (by decide)
    ⟨_, List.mem_cons_self _ _, rfl⟩ ⟨_, List.mem_cons_self _ _, by decide⟩
    (by decide)

/-- Claim C6: after the profile backfill, every login of the union of
reviewers, commenters and reporters maps in the profile table to exactly
the profile record the batched request returned for that login. -/
theorem c6_backfill_stores_profiles (d : ContributorData)
    (getUsersData : List String → List GqlUser) (oracle : String → GqlUser)
    (hresp : getUsersData (unionRCR (aggregate d)) =
      (unionRCR (aggregate d)).map oracle)
    (hlogin : ∀ l, (oracle l).login = l) :
    ∀ l ∈ unionRCR (aggregate d),
      udGet (backfill getUsersData (aggregate d)).userData l =
        some (gqlToProfile (oracle l)) := by
  intro l hl
  have hpos : 0 < (unionRCR (aggregate d)).length := by
    rcases h : unionRCR (aggregate d) with _ | ⟨a, t⟩
    · rw [h] at hl; cases hl
    · simp [h]
  unfold backfill
  rw [if_pos hpos]
  show udGet (storeUsers (aggregate d).userData
    (getUsersData (unionRCR (aggregate d)))) l = _
  rw [hresp]
  exact udGet_storeUsers_mem oracle hlogin _ _ l hl

/-- Claim C6 witness: the backfill theorem applied to a run with one review
by bob and an oracle answering each login with a profile under it. -/
theorem c6_backfill_stores_profiles_witness :
    "bob" ∈ unionRCR (aggregate reviewOnlyData) ∧
    udGet (backfill mapUsersData (aggregate reviewOnlyData)).userData "bob" =
      some (gqlToProfile (profileOracle "bob")) :=
  ⟨by decide, c6_backfill_stores_profiles reviewOnlyData mapUsersData profileOracle
    rfl (fun _ => rfl) "bob" (by decide)⟩

/-- Claim C8 counterexample: on the empty input the union is empty and the
batched request is indeed skipped, but the run returns before the
directory-resolution step — no directory lookup is issued, against the
claim that the pipeline still proceeds to it. -/
theorem c8_counterexample :
    unionRCR (aggregate emptyData) = [] ∧
    (getContributorsList mapUsersData noneDirData emptyData).2.batchRequest = none ∧
    (getContributorsList mapUsersData noneDirData emptyData).2.directoryRequest =
      none :=
  ⟨rfl, rfl, rfl⟩

/-- Claim C8 (amended): when the union of reviewers, commenters and
reporters is empty after aggregation, no batched profile request is issued;
the run proceeds to issue the directory lookup exactly when at least one
contributor (necessarily a committer) was gathered, and with zero total
contributors it returns the empty result without any lookup. -/
theorem c8_empty_union_skips_batch (getUsersData : List String → List GqlUser)
    (getWPOrgData : List String → DirResponse) (d : ContributorData)
    (hempty : unionRCR (aggregate d) = []) :
    (getContributorsList getUsersData getWPOrgData d).2.batchRequest = none ∧
    ((aggregate d).contributors.committers ≠ [] →
      (getContributorsList getUsersData getWPOrgData d).2.directoryRequest =
        some (aggregate d).contributors.committers) ∧
    ((aggregate d).contributors.committers = [] →
      getContributorsList getUsersData getWPOrgData d = (none, ⟨none, none⟩)) := by
  have hguard : ¬ 0 < (unionRCR (aggregate d)).length := by
    rw [hempty]
    simp
  have hbf : backfill getUsersData (aggregate d) = aggregate d := by
    unfold backfill
    rw [if_neg hguard]
  have hgh : githubUsers (aggregate d) = (aggregate d).contributors.committers := by
    have h3 : (aggregate d).contributors.reviewers = [] ∧
        (aggregate d).contributors.commenters = [] ∧
        (aggregate d).contributors.reporters = [] := by
      have h := hempty
      unfold unionRCR at h
      simpa [List.append_eq_nil] using h
    unfold githubUsers
    rw [h3.1, h3.2.1, h3.2.2]
    simp
  have hkey : getContributorsList getUsersData getWPOrgData d =
      if (aggregate d).contributors.committers.length = 0 then (none, ⟨none, none⟩)
      else
        (some (render (aggregate d).contributors
          (mergeDirectory (aggregate d).userData
            (getWPOrgData (aggregate d).contributors.committers))),
         ⟨none, some (aggregate d).contributors.committers⟩) := by
    simp only [getContributorsList, hbf, hgh, if_neg hguard]
  refine ⟨?_, ?_, ?_⟩
  · rw [hkey]
    split
    · rfl
    · rfl
  · intro hne
    rw [hkey, if_neg (by simpa [List.length_eq_zero] using hne)]
  · intro heq
    rw [hkey, if_pos (by simp [heq])]

/-- Claim C8 witness: the amended theorem applied to a run with one linked
commit and nothing else — the batch is skipped and the directory lookup is
issued for the lone committer. -/
theorem c8_empty_union_skips_batch_witness :
    (getContributorsList mapUsersData noneDirData commitOnlyData).2.batchRequest =
      none ∧
    (getContributorsList mapUsersData noneDirData commitOnlyData).2.directoryRequest =
      some ["alice"] := by
  have h := c8_empty_union_skips_batch mapUsersData noneDirData commitOnlyData rfl
  refine ⟨h.1, ?_⟩
  rw [h.2.1 (by decide)]
  rfl

/-- Claim C9 counterexample: the category sets are module-level, so a
second run in the same process does not start from empty state — a review
by alice lands in `reviewers` on a fresh state but is skipped entirely when
a prior run already recorded alice as a committer, so the second run's
output differs from the fresh-state output. -/
theorem c9_counterexample :
    (aggregateFrom emptyState secondRunData).contributors.reviewers = ["alice"] ∧
    (aggregateFrom (aggregateFrom emptyState firstRunData)
      secondRunData).contributors.reviewers = [] :=
  ⟨rfl, rfl⟩

/-- Claim C9 (amended): the module-level category sets persist across
invocations in one process: every contributor recorded by a first run is
still recorded after a second run over the accumulated state, in the same
category. -/
theorem c9_state_persists (d₁ d₂ : ContributorData) (x : String) :
    (x ∈ (aggregateFrom emptyState d₁).contributors.committers →
      x ∈ (aggregateFrom (aggregateFrom emptyState d₁) d₂).contributors.committers) ∧
    (x ∈ (aggregateFrom emptyState d₁).contributors.reviewers →
      x ∈ (aggregateFrom (aggregateFrom emptyState d₁) d₂).contributors.reviewers) ∧
    (x ∈ (aggregateFrom emptyState d₁).contributors.commenters →
      x ∈ (aggregateFrom (aggregateFrom emptyState d₁) d₂).contributors.commenters) ∧
    (x ∈ (aggregateFrom emptyState d₁).contributors.reporters →
      x ∈ (aggregateFrom (aggregateFrom emptyState d₁) d₂).contributors.reporters) := by
  obtain ⟨h1, h2, h3, h4⟩ := aggregateFrom_monotone (aggregateFrom emptyState d₁) d₂
  exact ⟨h1 x, h2 x, h3 x, h4 x⟩

/-- Claim C9 witness: alice, recorded as a committer by the first run,
is still recorded after the second run. -/
theorem c9_state_persists_witness :
    "alice" ∈ (aggregateFrom (aggregateFrom emptyState firstRunData)
      secondRunData).contributors.committers :=
  (c9_state_persists firstRunData secondRunData "alice").1 (by decide)

/-- Claim C10: when two or more commits with no linked account share one
fallback email, aggregation records that email exactly once in
`committers`, and the profile stored under the email is the name/email pair
of the last such commit processed. -/
theorem c10_email_fallback_last_write_wins (d : ContributorData) (e : String)
    (h2 : 2 ≤ (emailFallbackCommits d.commits e).length) :
    (aggregate d).contributors.committers.count e = 1 ∧
    ∃ c, (emailFallbackCommits d.commits e).getLast? = some c ∧
      udGet (aggregate d).userData e = some (emailProfile c) := by
  have hne : emailFallbackCommits d.commits e ≠ [] := by
    intro h
    rw [h] at h2
    simp at h2
  obtain ⟨_, hcount, hrest⟩ := aggregate_email_fallback d hne
  exact ⟨hcount, hrest⟩

/-- Claim C10 witness: two unlinked commits sharing an email — the email is
counted once and the stored profile is the second commit's pair. -/
theorem c10_email_fallback_last_write_wins_witness :
    2 ≤ (emailFallbackCommits twoEmailCommitsData.commits "shared@example.test").length ∧
    (aggregate twoEmailCommitsData).contributors.committers.count
      "shared@example.test" = 1 ∧
    ∃ c, (emailFallbackCommits twoEmailCommitsData.commits
        "shared@example.test").getLast? = some c ∧
      udGet (aggregate twoEmailCommitsData).userData "shared@example.test" =
        some (emailProfile c) :=
  ⟨by decide, c10_email_fallback_last_write_wins twoEmailCommitsData
    "shared@example.test" (by decide)⟩

end WordPressProps
